import Mathlib

/-!
Verification development for the two solvers of this repository:

* `tig-algorithms/src/knapsack/bounded_greedy_dp/inbound.rs` — a
  bounds-pruned 0/1 knapsack DP (`solve_challenge`), and
* `tig-algorithms/src/vehicle_routing/overloded/innovator_outbound.rs` — an
  ant-colony routing heuristic (`solve_challenge`).

Machine integers (`u32`, `usize`, `i32`) are embedded as `Nat`/`Int` (the
inputs of interest are far from overflow and the Rust arithmetic in the
modelled paths is non-wrapping).  The knapsack bound's `f64` break term is
embedded bit-exactly (`breakTermF64`: dyadic round-to-nearest-even);
`f64` ratio comparisons and the routing probability arithmetic are
embedded as exact `ℚ` arithmetic, and every place where that choice is
observable is noted at the definition it concerns.
-/

/-! # Knapsack solver (`bounded_greedy_dp/inbound.rs`) -/

/-- The knapsack `Challenge`: `max_weight`, `min_value`,
`difficulty.num_items`, and the `weights`/`values` arrays (all `u32`/`usize`
in Rust, embedded as `Nat`). -/
structure KChallenge where
  maxWeight : Nat
  minValue : Nat
  numItems : Nat
  weights : List Nat
  values : List Nat
deriving Repr, DecidableEq

/-- `weights[i]` (out-of-range reads default to `0`; the modelled claims only
read indices `< num_items` on well-formed instances). -/
def wt (c : KChallenge) (i : Nat) : Nat := c.weights.getD i 0

/-- `values[i]`. -/
def vl (c : KChallenge) (i : Nat) : Nat := c.values.getD i 0

/-- The sort order of `sorted_items`: item `i` may precede item `j` iff
`values[i]/weights[i] ≥ values[j]/weights[j]`.  The Rust code compares the
`f64` ratios `values[i] as f64 / weights[i] as f64`; we compare the exact
rationals by cross-multiplication, which also gives `v/0 = +∞` (for `v > 0`)
its Rust ordering.  The two orders agree whenever no two distinct exact
ratios round to the same `f64`; all concrete instances used below have
exactly representable, pairwise distinct ratios. -/
def ratioGe (c : KChallenge) (i j : Nat) : Bool :=
  vl c j * wt c i ≤ vl c i * wt c j

/-- Insert index `i` into a ratio-sorted list, before the first entry whose
ratio it reaches. -/
def insertRatio (c : KChallenge) (i : Nat) : List Nat → List Nat
  | [] => [i]
  | j :: js => if ratioGe c i j then i :: j :: js else j :: insertRatio c i js

/-- Sort a list of item indices by descending value/weight ratio
(stable insertion sort). -/
def sortIndices (c : KChallenge) : List Nat → List Nat
  | [] => []
  | i :: is => insertRatio c i (sortIndices c is)

/-- `sorted_items`: the item indices `0..num_items` sorted by descending
value/weight ratio.  Rust uses `sort_unstable_by`; ties are therefore
implementation-defined there, and we fix the stable order.  Every concrete
instance below has pairwise distinct ratios, where both agree. -/
def sortedItems (c : KChallenge) : List Nat :=
  sortIndices c (List.range c.numItems)

/-- Round-to-nearest, ties-to-even, of the ratio `p / q` (IEEE 754's
default rounding applied to an integer-scaled significand).  Junk at
`q = 0` (every call site keeps `q ≠ 0`). -/
def rnte (p q : Nat) : Nat :=
  if 2 * (p % q) < q then p / q
  else if q < 2 * (p % q) then p / q + 1
  else if (p / q) % 2 = 0 then p / q else p / q + 1

/-- Binary normalization for `f64` rounding: scale the value
`(a / b) * 2 ^ e` by powers of two until `a / b ∈ [2^52, 2^53)`.  The fuel
(2200 at call sites) covers the entire double exponent range; the model
targets normal, non-overflowing values, which covers every value the
knapsack bound computes from `u32` inputs. -/
def normF : Nat → Nat → Nat → Int → Nat × Nat × Int
  | 0, a, b, e => (a, b, e)
  | fuel + 1, a, b, e =>
    if a = 0 ∨ b = 0 then (a, b, e)
    else if 2 ^ 53 * b ≤ a then normF fuel a (2 * b) (e + 1)
    else if a < 2 ^ 52 * b then normF fuel (2 * a) b (e - 1)
    else (a, b, e)

/-- The `f64` nearest to `(a / b) * 2 ^ e`, as an exact dyadic
`mantissa * 2 ^ exponent` pair (53-bit significand, round-to-nearest-even;
the mantissa may come out as `2^53`, which still denotes the exact rounded
value). -/
def flDyadic (a b : Nat) (e : Int) : Nat × Int :=
  let n := normF 2200 a b e
  (rnte n.1 n.2.1, n.2.2)

/-- The code's break term `(ratio * remaining_weight as f64) as usize`
with `ratio = values[i] as f64 / weights[i] as f64`, computed bit-exactly:
the `u32`-to-`f64` conversions are exact, the division and the
multiplication each round to nearest-even, and the final cast truncates
toward zero.  Junk at `w = 0` (the break branch has `w > remaining ≥ 0`,
so `w ≥ 1` there). -/
def breakTermF64 (v w rem : Nat) : Nat :=
  let r := flDyadic v w 0
  let p := flDyadic (r.1 * rem) 1 r.2
  if 0 ≤ p.2 then p.1 * 2 ^ p.2.toNat else p.1 / 2 ^ (-p.2).toNat

/-- The greedy fractional-relaxation upper bound (`upper_bound` in the Rust
loop): walk the ratio-sorted items, take each item that fits, and stop at
the first item that does not fit, adding the `f64` break term
`(ratio * remaining_weight) as usize` (see `breakTermF64`).  Because of the
two `f64` roundings this can differ from the exact `⌊v * remaining / w⌋`
in either direction — e.g. `v = 49, w = 2401, remaining = 49` gives `0`
here (`fl(fl(49/2401) · 49) = 1 - 2⁻⁵³`) but `1` exactly; see
`upperBoundExact` for the idealized bound. -/
def upperBound (c : KChallenge) : List Nat → Nat → Nat
  | [], _ => 0
  | i :: rest, rem =>
    if wt c i ≤ rem then vl c i + upperBound c rest (rem - wt c i)
    else breakTermF64 (vl c i) (wt c i) rem

/-- Flat bit position of the inclusion bit the Rust code touches for
(sorted position `i`, capacity `w`): word index
`i * ((max_weight + 1) / 64) + w / 64`, bit `w % 64`.  Two `(i, w)` pairs
alias in Rust iff they alias here. -/
def flatPos (W i w : Nat) : Nat :=
  (i * ((W + 1) / 64) + w / 64) * 64 + w % 64

/-- The capacities `max_weight, max_weight - 1, ..., item_weight` scanned by
the inner DP loop (`for w in (item_weight..=max_weight).rev()`), in that
order. -/
def descWs (wi W : Nat) : List Nat := (List.range' wi (W + 1 - wi)).reverse

/-- One item's inner DP scan: for each capacity `w` in `ws` (descending),
if `dp[w - item_weight] + item_value > dp[w]` then update `dp[w]` and set
the inclusion bit at `flatPos W i w`. -/
def dpScan (wi vi W i : Nat) : List Nat → List Nat → (Nat → Bool) →
    List Nat × (Nat → Bool)
  | [], dp, inc => (dp, inc)
  | w :: ws, dp, inc =>
    let nv := dp.getD (w - wi) 0 + vi
    if dp.getD w 0 < nv then
      dpScan wi vi W i ws (dp.set w nv)
        (fun p => if p = flatPos W i w then true else inc p)
    else
      dpScan wi vi W i ws dp inc

/-- The backward reconstruction walk: for `j` in `js` (the list
`[i, i-1, ..., 0]`), if the inclusion bit at `(j, w)` is set, push
`sorted_items[j].0` and subtract its weight from `w`
(`w.saturating_sub(...)`, which is `Nat` subtraction). -/
def reconAux (c : KChallenge) (sorted : List Nat) (inc : Nat → Bool) :
    List Nat → Nat → List Nat
  | [], _ => []
  | j :: js, w =>
    if inc (flatPos c.maxWeight j w) then
      sorted.getD j 0 :: reconAux c sorted inc js (w - wt c (sorted.getD j 0))
    else
      reconAux c sorted inc js w

/-- The main DP loop over ratio-sorted items: scan each item, then if
`dp[max_weight] ≥ min_value` reconstruct, reverse and return; after the
last item return `None`. -/
def mainLoop (c : KChallenge) (sorted : List Nat) :
    List Nat → Nat → List Nat → (Nat → Bool) → Option (List Nat)
  | [], _, _, _ => none
  | idx :: rest, i, dp, inc =>
    let out := dpScan (wt c idx) (vl c idx) c.maxWeight i
      (descWs (wt c idx) c.maxWeight) dp inc
    if c.minValue ≤ out.1.getD c.maxWeight 0 then
      some ((reconAux c sorted out.2 ((List.range (i + 1)).reverse)
        c.maxWeight).reverse)
    else
      mainLoop c sorted rest (i + 1) out.1 out.2

/-- `solve_challenge` for the knapsack (the non-panicking path; see
`knapsackPanics`): early-exit `None` when the greedy upper bound is below
`min_value`, otherwise run the DP main loop. -/
def solveKnapsack (c : KChallenge) : Option (List Nat) :=
  let sorted := sortedItems c
  if upperBound c sorted c.maxWeight < c.minValue then none
  else
    mainLoop c sorted sorted 0 (List.replicate (c.maxWeight + 1) 0)
      (fun _ => false)

/-- The sort comparator is `b.1.partial_cmp(&a.1).unwrap()` on `f64`
ratios; `partial_cmp` returns `None` exactly when one side is NaN, and the
only NaN ratio is `0.0 / 0.0`, i.e. an item with weight `0` and value `0`.
Any comparison sort of `≥ 2` elements performs at least one comparison
involving each element, so `sort_unstable_by` panics on the `unwrap` iff
`num_items ≥ 2` and some item has weight `0` and value `0`. -/
def knapsackPanics (c : KChallenge) : Bool :=
  2 ≤ c.numItems &&
    (List.range c.numItems).any (fun i => wt c i == 0 && vl c i == 0)

/-- Total weight of a list of selected item indices. -/
def totalWeight (c : KChallenge) (sel : List Nat) : Nat := (sel.map (wt c)).sum

/-- Total value of a list of selected item indices. -/
def totalValue (c : KChallenge) (sel : List Nat) : Nat := (sel.map (vl c)).sum

/-- The idealized exact-arithmetic greedy bound: the same walk as
`upperBound`, with the break term computed as the exact
`⌊v * remaining / w⌋` instead of the code's twice-rounded `f64` value.
This is the bound the spec reasons about; it is provably sound
(`upperBoundExact_sound`), whereas the code's `f64` bound can undershoot it
and is not. -/
def upperBoundExact (c : KChallenge) : List Nat → Nat → Nat
  | [], _ => 0
  | i :: rest, rem =>
    if wt c i ≤ rem then vl c i + upperBoundExact c rest (rem - wt c i)
    else vl c i * rem / wt c i

/-- Fully exact rational version of the greedy bound: as
`upperBoundExact`, but the break term is the exact `(v/w) * remaining`
without the floor.  Used only as a proof device relating
`upperBoundExact` to the LP relaxation. -/
def ubQ (c : KChallenge) : List Nat → Nat → ℚ
  | [], _ => 0
  | i :: rest, rem =>
    if wt c i ≤ rem then vl c i + ubQ c rest (rem - wt c i)
    else (vl c i : ℚ) * rem / wt c i

/-! # Routing solver (`overloded/innovator_outbound.rs`)

The ant-colony loop works on `f64` throughout; it is embedded over exact
`ℚ`.  Divisions by zero (`1.0 / 0.0 = ∞` in Rust, `0` in `ℚ`) are the one
observable difference; every theorem that touches a division carries
hypotheses keeping its divisor non-zero, except where noted.  `StdRng` is
embedded as an abstract draw stream (`RngModel`): draw `k` of
`rng.gen_range(0..n)` is `range k n` and draw `k` of `rng.gen::<f64>()`
(uniform on `[0, 1)`) is `unit k`; theorems quantify over all streams and
counterexamples use streams whose draws lie in the generator's actual
ranges. -/

/-- The vehicle-routing `Challenge`: `difficulty.num_nodes`, the `i32`
distance matrix, `max_capacity`, `demands` and the seed bytes. -/
structure RChallenge where
  numNodes : Nat
  distanceMatrix : List (List Int)
  maxCapacity : Int
  demands : List Int
  seed : List Nat
deriving Repr, DecidableEq

/-- The routing `Solution { routes }`. -/
structure RSolution where
  routes : List (List Nat)
deriving Repr, DecidableEq

/-- Abstract model of the seeded `StdRng` stream; see the section header. -/
structure RngModel where
  range : Nat → Nat → Nat
  unit : Nat → ℚ

/-- `distance_matrix[i][j] as f64` (out-of-range reads default to `0`;
every theorem keeps indices in range). -/
def dQ (m : List (List Int)) (i j : Nat) : ℚ := ((m.getD i []).getD j 0 : Int)

/-- The unnormalized probability row built for the current node: `0.0` for
visited nodes, else `pheromone[cur][next].powf(1.0) *
(1.0 / distance[cur][next]).powf(2.0)` with the code's constants
`alpha = 1.0`, `beta = 2.0` inlined. -/
def probsFor (n : Nat) (m : List (List Int)) (pher : List (List ℚ))
    (visited : Nat → Bool) (cur : Nat) : List ℚ :=
  (List.range n).map fun next =>
    if visited next then 0
    else (pher.getD cur []).getD next 0 * (1 / dQ m cur next) ^ 2

/-- The roulette loop: accumulate `prob / total_probability` and stop at
the first index where the draw `r` is at most the accumulated value;
`none` when the loop falls through. -/
def selectNextAux (total r : ℚ) : List ℚ → ℚ → Nat → Option Nat
  | [], _, _ => none
  | p :: ps, cum, i =>
    if r ≤ cum + p / total then some i
    else selectNextAux total r ps (cum + p / total) (i + 1)

/-- `next_node` after the loop: it is initialized `let mut next_node = 0`
and only overwritten on break, so a fall-through yields node `0`. -/
def selectNext (probs : List ℚ) (total r : ℚ) : Nat :=
  (selectNextAux total r probs 0 0).getD 0

/-- The `while ant.tour.len() < num_nodes` loop, with the tour kept in
reversed order (head = current node) and `fuel` its remaining trip count. -/
def buildSteps (n : Nat) (m : List (List Int)) (pher : List (List ℚ))
    (rng : RngModel) : Nat → Nat → List Nat → (Nat → Bool) →
    List Nat × Nat
  | 0, k, trev, _ => (trev, k)
  | fuel + 1, k, trev, visited =>
    let cur := trev.headD 0
    let probs := probsFor n m pher visited cur
    let next := selectNext probs probs.sum (rng.unit k)
    buildSteps n m pher rng fuel (k + 1) (next :: trev)
      (fun v => if v = next then true else visited v)

/-- `calculate_tour_length`: sum of the distances of consecutive pairs. -/
def tourLength (m : List (List Int)) : List Nat → ℚ
  | a :: b :: rest => dQ m a b + tourLength m (b :: rest)
  | _ => 0

/-- One ant: draw a start node with `gen_range(0..num_nodes)`, take
`num_nodes - 1` construction steps, close the tour with its first node and
measure it.  Returns the closed tour, its length and the next draw index. -/
def runAnt (n : Nat) (m : List (List Int)) (pher : List (List ℚ))
    (rng : RngModel) (k : Nat) : List Nat × ℚ × Nat :=
  let start := rng.range k n
  let out := buildSteps n m pher rng (n - 1) (k + 1) [start]
    (fun v => if v = start then true else false)
  let tour := out.1.reverse
  let closed := tour ++ [tour.headD 0]
  (closed, tourLength m closed, out.2)

/-- Construct `count` ants in sequence against one pheromone matrix
(`num_ants = 10` in the code), threading the draw index. -/
def runAnts (n : Nat) (m : List (List Int)) (pher : List (List ℚ))
    (rng : RngModel) : Nat → Nat → List (List Nat × ℚ) × Nat
  | 0, k => ([], k)
  | count + 1, k =>
    let a := runAnt n m pher rng k
    let out := runAnts n m pher rng count a.2.2
    ((a.1, a.2.1) :: out.1, out.2)

/-- The best-tour scan: `if ant.tour_length < best_tour_length` replaces
the running best, in ant order. -/
def updateBest : List (List Nat × ℚ) → List Nat × ℚ → List Nat × ℚ
  | [], best => best
  | a :: ants, best => updateBest ants (if a.2 < best.2 then a else best)

/-- Apply `f` to the entry at index `i` of a list (identity out of
range). -/
def updAt {α : Type} (f : α → α) : Nat → List α → List α
  | _, [] => []
  | 0, x :: xs => f x :: xs
  | i + 1, x :: xs => x :: updAt f i xs

/-- Apply `f` to matrix entry `(i, j)`. -/
def updAt2 (f : ℚ → ℚ) (i j : Nat) (mat : List (List ℚ)) :
    List (List ℚ) :=
  updAt (fun row => updAt f j row) i mat

/-- Evaporation: every entry is multiplied by
`1.0 - evaporation_rate = 1.0 - 0.5`. -/
def evaporate (pher : List (List ℚ)) : List (List ℚ) :=
  pher.map (fun row => row.map (fun p => p * (1 - 1/2)))

/-- Reinforce every edge of one tour in both directions by `amt`
(`1.0 / ant.tour_length` at the call site). -/
def reinforceTour (amt : ℚ) : List Nat → List (List ℚ) → List (List ℚ)
  | a :: b :: rest, pher =>
    reinforceTour amt (b :: rest)
      (updAt2 (· + amt) b a (updAt2 (· + amt) a b pher))
  | _, pher => pher

/-- Reinforce all ants' tours. -/
def reinforce : List (List Nat × ℚ) → List (List ℚ) → List (List ℚ)
  | [], pher => pher
  | a :: ants, pher => reinforce ants (reinforceTour (1 / a.2) a.1 pher)

/-- The mutable loop state: pheromone matrix, next draw index, best tour
and best tour length. -/
structure AcoState where
  pher : List (List ℚ)
  k : Nat
  bestTour : List Nat
  bestLen : ℚ
deriving Repr, DecidableEq

/-- `f64::MAX`, the initial `best_tour_length`, as an exact rational. -/
def fMax : ℚ := (2 - (1/2) ^ 52) * 2 ^ 1023

/-- Initial state: an `n × n` matrix of `1.0 / (num_nodes as f64)`, draw
index `0`, empty best tour, best length `f64::MAX`. -/
def initState (n : Nat) : AcoState :=
  ⟨List.replicate n (List.replicate n (1 / (n : ℚ))), 0, [], fMax⟩

/-- One iteration of the ACO loop: build the `10` ants, scan them for the
best tour, evaporate, then reinforce every ant's tour. -/
def acoIter (n : Nat) (m : List (List Int)) (rng : RngModel)
    (st : AcoState) : AcoState :=
  let out := runAnts n m st.pher rng 10 st.k
  let best := updateBest out.1 (st.bestTour, st.bestLen)
  ⟨reinforce out.1 (evaporate st.pher), out.2, best.1, best.2⟩

/-- Run `t` iterations. -/
def acoIters (n : Nat) (m : List (List Int)) (rng : RngModel) :
    Nat → AcoState → AcoState
  | 0, st => st
  | t + 1, st => acoIters n m rng t (acoIter n m rng st)

/-- The routing `solve_challenge` body on `(num_nodes, distance_matrix)`
with a given draw stream: `max_iterations = 1000` iterations, then
`Solution { routes: vec![best_tour] }`.  (`max_capacity` and `demands` are
bound to unused `_`-variables in the code and do not appear.) -/
def solveRoutingCore (n : Nat) (m : List (List Int)) (rng : RngModel) :
    RSolution :=
  ⟨[(acoIters n m rng 1000 (initState n)).bestTour]⟩

/-- `u64::from_le_bytes(challenge.seed[..8].try_into().unwrap())`: the
little-endian value of the first 8 seed bytes. -/
def seedU64 (seed : List Nat) : Nat :=
  (List.range 8).foldl (fun acc i => acc + seed.getD i 0 * 256 ^ i) 0

/-- `solve_challenge` for routing: the `StdRng` stream family `gen` is
seeded with `seed_from_u64` of the first 8 seed bytes, and the core loop
reads only `num_nodes` and `distance_matrix` from the instance. -/
def solveRouting (gen : Nat → RngModel) (c : RChallenge) : RSolution :=
  solveRoutingCore c.numNodes c.distanceMatrix (gen (seedU64 c.seed))

/-- An `n × n` matrix all of whose entries satisfy `P`. -/
def MatP (n : Nat) (P : ℚ → Prop) (mat : List (List ℚ)) : Prop :=
  mat.length = n ∧ (∀ row ∈ mat, row.length = n) ∧
    ∀ row ∈ mat, ∀ x ∈ row, P x

/-- Well-formedness of a pheromone matrix: `n × n`, all entries strictly
positive. -/
def PherOk (n : Nat) (pher : List (List ℚ)) : Prop :=
  MatP n (fun x => 0 < x) pher

/-- C1: the claim says every returned solution has total weight
`≤ max_weight`.  The code violates this: on the instance with weights
`[1, 3]`, values `[1, 4]`, `max_weight = 2`, `min_value = 1`, the inclusion
bitmask rows alias (the row stride `(max_weight + 1) / 64` is `0`), the
backward walk attributes item `1`'s bit to a row where it does not belong,
and `saturating_sub` hides the overflow: the returned solution `[1, 0]`
weighs `4 > 2`. -/
theorem knapsack_weight_constraint_violated :
    solveKnapsack ⟨2, 1, 2, [1, 3], [1, 4]⟩ = some [1, 0] ∧
      ¬ totalWeight ⟨2, 1, 2, [1, 3], [1, 4]⟩ [1, 0] ≤ 2 := by
  constructor
  · rfl
  · decide

/-- C2: the claim says every returned solution has total value
`≥ min_value`.  The code violates this: on the instance with weights
`[1, 1, 2]`, values `[1, 4, 3]`, `max_weight = 2`, `min_value = 5`, the
aliased bitmask rows make the backward walk pick item `2` in place of item
`1`, and the returned solution `[2, 0]` has value `4 < 5` (it also weighs
`3 > 2`). -/
theorem knapsack_value_threshold_violated :
    solveKnapsack ⟨2, 5, 3, [1, 1, 2], [1, 4, 3]⟩ = some [2, 0] ∧
      ¬ 5 ≤ totalValue ⟨2, 5, 3, [1, 1, 2], [1, 4, 3]⟩ [2, 0] := by
  constructor
  · rfl
  · decide

/-- C10: an item with weight `0` and value `0` has NaN ratio, so the sort
comparator's `partial_cmp(..).unwrap()` panics whenever there are at least
two items (any comparison sort compares every element at least once);
`solve_challenge` is therefore not total over instances with non-negative
integer weights and values. -/
theorem knapsack_nan_ratio_panics (c : KChallenge) (i : Nat)
    (hi : i < c.numItems) (h2 : 2 ≤ c.numItems)
    (hw : wt c i = 0) (hv : vl c i = 0) :
    knapsackPanics c = true := by
  unfold knapsackPanics
  rw [Bool.and_eq_true, List.any_eq_true]
  exact ⟨decide_eq_true h2,
    ⟨i, List.mem_range.mpr hi, by rw [hw, hv]; rfl⟩⟩

/-- Witness for C10: the concrete two-item instance with items
`(w, v) = (0, 0)` and `(1, 1)` panics in the ratio sort. -/
theorem knapsack_nan_ratio_panics_witness :
    knapsackPanics ⟨5, 1, 2, [0, 1], [0, 1]⟩ = true :=
  knapsack_nan_ratio_panics ⟨5, 1, 2, [0, 1], [0, 1]⟩ 0 (by decide) (by decide)
    (by decide) (by decide)

/-- C8 counterexample: the claim says the returned indices appear in
ascending original index order.  On weights `[1, 1]`, values `[1, 2]`,
`max_weight = 2`, `min_value = 3` the solver returns `[1, 0]`, which is not
ascending: the final `reverse` restores ascending DP-processing
(ratio-sorted) position order, not original index order. -/
theorem knapsack_order_counterexample :
    solveKnapsack ⟨2, 3, 2, [1, 1], [1, 2]⟩ = some [1, 0] ∧
      ¬ List.Sorted (· < ·) [1, 0] := by
  constructor
  · rfl
  · decide

/-- The backward walk pushes entries at a subsequence of the strictly
decreasing position list it scans, each mapped through `sorted_items`. -/
lemma reconAux_shape (c : KChallenge) (sorted : List Nat) (inc : Nat → Bool) :
    ∀ (js : List Nat) (w : Nat), ∃ qs : List Nat, qs.Sublist js ∧
      reconAux c sorted inc js w = qs.map (fun p => sorted.getD p 0) := by
  intro js
  induction js with
  | nil => exact fun _ => ⟨[], List.Sublist.refl _, rfl⟩
  | cons j js ih =>
    intro w
    unfold reconAux
    by_cases h : inc (flatPos c.maxWeight j w) = true
    · obtain ⟨qs, hsub, heq⟩ := ih (w - wt c (sorted.getD j 0))
      exact ⟨j :: qs, List.Sublist.cons₂ j hsub, by rw [if_pos h, heq]; rfl⟩
    · obtain ⟨qs, hsub, heq⟩ := ih w
      exact ⟨qs, List.Sublist.cons j hsub, by rw [if_neg h, heq]⟩

/-- Whatever the main DP loop returns is a strictly increasing list of
positions in the ratio-sorted order, mapped through `sorted_items`. -/
lemma mainLoop_shape (c : KChallenge) (sorted : List Nat) :
    ∀ (rest : List Nat) (i : Nat) (dp : List Nat) (inc : Nat → Bool)
      (sel : List Nat), mainLoop c sorted rest i dp inc = some sel →
      ∃ qs : List Nat, List.Sorted (· < ·) qs ∧
        sel = qs.map (fun p => sorted.getD p 0) := by
  intro rest
  induction rest with
  | nil => intro i dp inc sel h; exact absurd h (by simp [mainLoop])
  | cons idx rest ih =>
    intro i dp inc sel h
    unfold mainLoop at h
    by_cases hdp : c.minValue ≤
        (dpScan (wt c idx) (vl c idx) c.maxWeight i
          (descWs (wt c idx) c.maxWeight) dp inc).1.getD c.maxWeight 0
    · rw [if_pos hdp, Option.some_inj] at h
      obtain ⟨qs, hsub, heq⟩ := reconAux_shape c sorted
        (dpScan (wt c idx) (vl c idx) c.maxWeight i
          (descWs (wt c idx) c.maxWeight) dp inc).2
        ((List.range (i + 1)).reverse) c.maxWeight
      refine ⟨qs.reverse, ?_, ?_⟩
      · rw [List.Sorted, List.pairwise_reverse]
        have hrev : ((List.range (i + 1)).reverse).Pairwise (· > ·) := by
          rw [List.pairwise_reverse]
          exact List.pairwise_lt_range (i + 1)
        exact hrev.sublist hsub
      · rw [← h, heq, List.map_reverse]
    · rw [if_neg hdp] at h
      exact ih (i + 1) _ _ sel h

/-- C8 amended: when `solve_challenge` returns a solution, the item indices
appear in ascending order of their *positions in the ratio-sorted order*
(the final `reverse` restores DP-processing order) — not necessarily in
ascending original index order. -/
theorem knapsack_order_amended (c : KChallenge) (sel : List Nat)
    (h : solveKnapsack c = some sel) :
    ∃ ps : List Nat, List.Sorted (· < ·) ps ∧
      sel = ps.map (fun p => (sortedItems c).getD p 0) := by
  unfold solveKnapsack at h
  by_cases hub : upperBound c (sortedItems c) c.maxWeight < c.minValue
  · rw [if_pos hub] at h; exact absurd h (by simp)
  · rw [if_neg hub] at h
    exact mainLoop_shape c (sortedItems c) (sortedItems c) 0 _ _ sel h

/-- Witness for the C8 amended theorem at the counterexample instance. -/
theorem knapsack_order_amended_witness :
    solveKnapsack ⟨2, 3, 2, [1, 1], [1, 2]⟩ = some [1, 0] ∧
      ∃ ps : List Nat, List.Sorted (· < ·) ps ∧
        [1, 0] = ps.map
          (fun p => (sortedItems ⟨2, 3, 2, [1, 1], [1, 2]⟩).getD p 0) :=
  ⟨by rfl, knapsack_order_amended ⟨2, 3, 2, [1, 1], [1, 2]⟩ [1, 0] (by rfl)⟩

/-- The ratio comparator is total. -/
lemma ratioGe_total (c : KChallenge) (i j : Nat) :
    ratioGe c i j = true ∨ ratioGe c j i = true := by
  unfold ratioGe
  rcases Nat.le_total (vl c j * wt c i) (vl c i * wt c j) with h | h
  · exact Or.inl (decide_eq_true h)
  · exact Or.inr (decide_eq_true h)

/-- The ratio comparator is transitive as long as the middle item is not the
NaN item `(w, v) = (0, 0)`. -/
lemma ratioGe_trans (c : KChallenge) {a b d : Nat}
    (hb : ¬(wt c b = 0 ∧ vl c b = 0))
    (h1 : ratioGe c a b = true) (h2 : ratioGe c b d = true) :
    ratioGe c a d = true := by
  unfold ratioGe at *
  rw [decide_eq_true_eq] at h1 h2 ⊢
  by_cases hvb : 0 < vl c b
  · have key : vl c b * (vl c d * wt c a) ≤ vl c b * (vl c a * wt c d) := by
      calc vl c b * (vl c d * wt c a) = vl c d * (vl c b * wt c a) := by ring
        _ ≤ vl c d * (vl c a * wt c b) := Nat.mul_le_mul_left _ h1
        _ = vl c a * (vl c d * wt c b) := by ring
        _ ≤ vl c a * (vl c b * wt c d) := Nat.mul_le_mul_left _ h2
        _ = vl c b * (vl c a * wt c d) := by ring
    exact Nat.le_of_mul_le_mul_left key hvb
  · have hwb : 0 < wt c b := by
      rcases Nat.eq_zero_or_pos (wt c b) with h | h
      · exact absurd ⟨h, Nat.eq_zero_of_not_pos hvb⟩ hb
      · exact h
    have key : wt c b * (vl c d * wt c a) ≤ wt c b * (vl c a * wt c d) := by
      calc wt c b * (vl c d * wt c a) = wt c a * (vl c d * wt c b) := by ring
        _ ≤ wt c a * (vl c b * wt c d) := Nat.mul_le_mul_left _ h2
        _ = wt c d * (vl c b * wt c a) := by ring
        _ ≤ wt c d * (vl c a * wt c b) := Nat.mul_le_mul_left _ h1
        _ = wt c b * (vl c a * wt c d) := by ring
    exact Nat.le_of_mul_le_mul_left key hwb

/-- Membership in `insertRatio`. -/
lemma mem_insertRatio (c : KChallenge) (i x : Nat) :
    ∀ l : List Nat, x ∈ insertRatio c i l ↔ x = i ∨ x ∈ l := by
  intro l
  induction l with
  | nil => simp [insertRatio]
  | cons j js ih =>
    unfold insertRatio
    by_cases h : ratioGe c i j = true
    · rw [if_pos h]; simp
    · rw [if_neg h]; simp only [List.mem_cons, ih]; tauto

/-- `insertRatio` permutes. -/
lemma insertRatio_perm (c : KChallenge) (i : Nat) :
    ∀ l : List Nat, (insertRatio c i l).Perm (i :: l) := by
  intro l
  induction l with
  | nil => exact List.Perm.refl _
  | cons j js ih =>
    unfold insertRatio
    by_cases h : ratioGe c i j = true
    · rw [if_pos h]
    · rw [if_neg h]
      exact (List.Perm.cons j ih).trans (List.Perm.swap i j js)

/-- `sortIndices` permutes its input. -/
lemma sortIndices_perm (c : KChallenge) :
    ∀ l : List Nat, (sortIndices c l).Perm l := by
  intro l
  induction l with
  | nil => exact List.Perm.refl _
  | cons i is ih =>
    exact (insertRatio_perm c i (sortIndices c is)).trans (List.Perm.cons i ih)

/-- `sortedItems` is a permutation of `range num_items`. -/
lemma sortedItems_perm (c : KChallenge) :
    (sortedItems c).Perm (List.range c.numItems) :=
  sortIndices_perm c _

/-- Inserting into a ratio-sorted list keeps it sorted, given that no
element of the list is the NaN item. -/
lemma pairwise_insertRatio (c : KChallenge) (i : Nat) :
    ∀ l : List Nat, (∀ x ∈ l, ¬(wt c x = 0 ∧ vl c x = 0)) →
      l.Pairwise (fun a b => ratioGe c a b = true) →
      (insertRatio c i l).Pairwise (fun a b => ratioGe c a b = true) := by
  intro l
  induction l with
  | nil => intro _ _; simp [insertRatio]
  | cons j js ih =>
    intro hgood hl
    rw [List.pairwise_cons] at hl
    unfold insertRatio
    by_cases h : ratioGe c i j = true
    · rw [if_pos h, List.pairwise_cons]
      refine ⟨?_, List.pairwise_cons.mpr hl⟩
      intro x hx
      rcases List.mem_cons.mp hx with rfl | hx
      · exact h
      · exact ratioGe_trans c (hgood j (List.mem_cons_self j js)) h (hl.1 x hx)
    · rw [if_neg h, List.pairwise_cons]
      have hji : ratioGe c j i = true := (ratioGe_total c i j).resolve_left h
      refine ⟨?_, ih (fun x hx => hgood x (List.mem_cons_of_mem j hx)) hl.2⟩
      intro x hx
      rcases (mem_insertRatio c i x js).mp hx with rfl | hx
      · exact hji
      · exact hl.1 x hx

/-- `sortIndices` sorts, given that no element is the NaN item. -/
lemma pairwise_sortIndices (c : KChallenge) :
    ∀ l : List Nat, (∀ x ∈ l, ¬(wt c x = 0 ∧ vl c x = 0)) →
      (sortIndices c l).Pairwise (fun a b => ratioGe c a b = true) := by
  intro l
  induction l with
  | nil => simp [sortIndices]
  | cons i is ih =>
    intro hgood
    refine pairwise_insertRatio c i (sortIndices c is) ?_
      (ih (fun x hx => hgood x (List.mem_cons_of_mem i hx)))
    intro x hx
    exact hgood x
      (List.mem_cons_of_mem i ((sortIndices_perm c is).mem_iff.mp hx))

/-- `sortedItems` is ratio-sorted when no in-range item is the NaN item. -/
lemma pairwise_sortedItems (c : KChallenge)
    (hnn : ∀ i, i < c.numItems → ¬(wt c i = 0 ∧ vl c i = 0)) :
    (sortedItems c).Pairwise (fun a b => ratioGe c a b = true) :=
  pairwise_sortIndices c _ (fun x hx => hnn x (List.mem_range.mp hx))

/-- `ubQ` is non-negative. -/
lemma ubQ_nonneg (c : KChallenge) :
    ∀ (L : List Nat) (rem : Nat), 0 ≤ ubQ c L rem := by
  intro L
  induction L with
  | nil => intro rem; simp [ubQ]
  | cons i rest ih =>
    intro rem
    unfold ubQ
    by_cases h : wt c i ≤ rem
    · rw [if_pos h]
      have := ih (rem - wt c i)
      positivity
    · rw [if_neg h]
      positivity

/-- At zero capacity, over items of positive weight, `ubQ` vanishes. -/
lemma ubQ_zero (c : KChallenge) :
    ∀ L : List Nat, (∀ j ∈ L, 0 < wt c j) → ubQ c L 0 = 0 := by
  intro L hL
  cases L with
  | nil => rfl
  | cons i rest =>
    unfold ubQ
    rw [if_neg (by have := hL i (List.mem_cons_self i rest); omega),
      Nat.cast_zero, mul_zero, zero_div]

/-- Slope bound: over a list of items whose ratios are all at most
`vi / wi`, raising the capacity from `rem'` to `rem` raises `ubQ` by at
most `(rem - rem') * vi / wi`. -/
lemma ubQ_slope (c : KChallenge) (vi wi : Nat) (hwi : 0 < wi) :
    ∀ (L : List Nat) (rem' rem : Nat), rem' ≤ rem →
      (∀ j ∈ L, vl c j * wi ≤ vi * wt c j) →
      (∀ j ∈ L, ¬(wt c j = 0 ∧ vl c j = 0)) →
      ubQ c L rem ≤ ubQ c L rem' + ((rem - rem' : ℕ) : ℚ) * vi / wi := by
  intro L
  induction L with
  | nil =>
    intro rem' rem _ _ _
    simp only [ubQ, add_zero, zero_add]
    positivity
  | cons j rest ih =>
    intro rem' rem hrr hr hg
    have hratio : vl c j * wi ≤ vi * wt c j := hr j (List.mem_cons_self j rest)
    have hrest_r : ∀ x ∈ rest, vl c x * wi ≤ vi * wt c x :=
      fun x hx => hr x (List.mem_cons_of_mem j hx)
    have hrest_g : ∀ x ∈ rest, ¬(wt c x = 0 ∧ vl c x = 0) :=
      fun x hx => hg x (List.mem_cons_of_mem j hx)
    have hrest_wpos : ∀ x ∈ rest, 0 < wt c x := by
      intro x hx
      rcases Nat.eq_zero_or_pos (wt c x) with h0 | h
      · exfalso
        have hrx := hrest_r x hx
        rw [h0, mul_zero] at hrx
        have hvx : vl c x = 0 := by
          rcases Nat.mul_eq_zero.mp (Nat.le_zero.mp hrx) with h | h
          · exact h
          · omega
        exact hrest_g x hx ⟨h0, hvx⟩
      · exact h
    have hwiq : (0:ℚ) < (wi:ℚ) := by exact_mod_cast hwi
    have hratq : (vl c j : ℚ) * wi ≤ (vi:ℚ) * (wt c j : ℚ) := by exact_mod_cast hratio
    by_cases h1 : wt c j ≤ rem'
    · have h2 : wt c j ≤ rem := le_trans h1 hrr
      unfold ubQ
      rw [if_pos h1, if_pos h2]
      have heq : (rem - wt c j) - (rem' - wt c j) = rem - rem' := by omega
      have hs := ih (rem' - wt c j) (rem - wt c j) (by omega) hrest_r hrest_g
      rw [heq] at hs
      linarith
    · have hwj : 0 < wt c j := by omega
      have hwjq : (0:ℚ) < (wt c j : ℚ) := by exact_mod_cast hwj
      have hbw : (rem' : ℚ) < (wt c j : ℚ) := by exact_mod_cast Nat.lt_of_not_le h1
      have hnum : (0:ℚ) ≤ (vi:ℚ) * (wt c j) - (vl c j) * wi :=
        sub_nonneg.mpr hratq
      by_cases h2 : wt c j ≤ rem
      · unfold ubQ
        rw [if_pos h2, if_neg h1]
        have hs := ih 0 (rem - wt c j) (Nat.zero_le _) hrest_r hrest_g
        rw [ubQ_zero c rest hrest_wpos, Nat.sub_zero, zero_add] at hs
        have hc1 : ((rem - wt c j : ℕ) : ℚ) = (rem:ℚ) - (wt c j:ℚ) :=
          Nat.cast_sub h2
        have hc2 : ((rem - rem' : ℕ) : ℚ) = (rem:ℚ) - (rem':ℚ) :=
          Nat.cast_sub hrr
        rw [hc1] at hs
        rw [hc2]
        have hdiff : (vl c j : ℚ) * rem' / wt c j +
              ((rem:ℚ) - rem') * vi / wi -
              ((vl c j : ℚ) + ((rem:ℚ) - wt c j) * vi / wi) =
            ((wt c j : ℚ) - rem') * ((vi:ℚ) * wt c j - (vl c j) * wi) /
              ((wt c j : ℚ) * wi) := by
          field_simp
          ring
        have hpos : (0:ℚ) ≤ ((wt c j : ℚ) - rem') *
            ((vi:ℚ) * wt c j - (vl c j) * wi) / ((wt c j : ℚ) * wi) :=
          div_nonneg (mul_nonneg (sub_nonneg.mpr hbw.le) hnum)
            (mul_nonneg hwjq.le hwiq.le)
        linarith [hdiff ▸ hpos]
      · unfold ubQ
        rw [if_neg h1, if_neg h2]
        have hc2 : ((rem - rem' : ℕ) : ℚ) = (rem:ℚ) - (rem':ℚ) :=
          Nat.cast_sub hrr
        rw [hc2]
        have hab : (rem':ℚ) ≤ (rem:ℚ) := by exact_mod_cast hrr
        have hdiff : (vl c j : ℚ) * rem' / wt c j +
              ((rem:ℚ) - rem') * vi / wi - (vl c j : ℚ) * rem / wt c j =
            ((rem:ℚ) - rem') * ((vi:ℚ) * wt c j - (vl c j) * wi) /
              ((wt c j : ℚ) * wi) := by
          field_simp
          ring
        have hpos : (0:ℚ) ≤ ((rem:ℚ) - rem') *
            ((vi:ℚ) * wt c j - (vl c j) * wi) / ((wt c j : ℚ) * wi) :=
          div_nonneg (mul_nonneg (sub_nonneg.mpr hab) hnum)
            (mul_nonneg hwjq.le hwiq.le)
        linarith [hdiff ▸ hpos]

/-- Dantzig-bound soundness core: over a ratio-sorted item list `L` without
NaN items, every subset of `L` whose total weight fits in `rem` has total
value at most `ubQ`. -/
lemma value_le_ubQ (c : KChallenge) :
    ∀ (L : List Nat) (S : Finset Nat) (rem : Nat),
      L.Pairwise (fun a b => ratioGe c a b = true) →
      (∀ j ∈ L, ¬(wt c j = 0 ∧ vl c j = 0)) →
      (∀ x ∈ S, x ∈ L) →
      (∑ x in S, wt c x) ≤ rem →
      (∑ x in S, (vl c x : ℚ)) ≤ ubQ c L rem := by
  intro L
  induction L with
  | nil =>
    intro S rem _ _ hS _
    have hempty : S = ∅ :=
      Finset.eq_empty_of_forall_not_mem
        (fun x hx => (List.not_mem_nil x) (hS x hx))
    rw [hempty]
    simp [ubQ]
  | cons i rest ih =>
    intro S rem hpair hgood hS hw
    rw [List.pairwise_cons] at hpair
    have hgood_rest : ∀ j ∈ rest, ¬(wt c j = 0 ∧ vl c j = 0) :=
      fun j hj => hgood j (List.mem_cons_of_mem i hj)
    have hrel : ∀ j ∈ rest, vl c j * wt c i ≤ vl c i * wt c j := by
      intro j hj
      have := hpair.1 j hj
      unfold ratioGe at this
      exact of_decide_eq_true this
    by_cases hfit : wt c i ≤ rem
    · unfold ubQ
      rw [if_pos hfit]
      by_cases hiS : i ∈ S
      · have hsw := Finset.add_sum_erase S (wt c) hiS
        have hsv := Finset.add_sum_erase S (fun x => (vl c x : ℚ)) hiS
        have hS' : ∀ x ∈ S.erase i, x ∈ rest := by
          intro x hx
          rcases List.mem_cons.mp (hS x (Finset.mem_of_mem_erase hx)) with
            heq | h
          · exact absurd heq (Finset.ne_of_mem_erase hx)
          · exact h
        have hw' : (∑ x in S.erase i, wt c x) ≤ rem - wt c i := by omega
        have hrec := ih (S.erase i) (rem - wt c i) hpair.2 hgood_rest hS' hw'
        linarith [hsv]
      · have hS' : ∀ x ∈ S, x ∈ rest := by
          intro x hx
          rcases List.mem_cons.mp (hS x hx) with heq | h
          · exact absurd (heq ▸ hx) hiS
          · exact h
        have hmain := ih S rem hpair.2 hgood_rest hS' hw
        by_cases hwi0 : wt c i = 0
        · rw [hwi0, Nat.sub_zero]
          have : (0:ℚ) ≤ (vl c i : ℚ) := Nat.cast_nonneg _
          linarith
        · have hwi : 0 < wt c i := Nat.pos_of_ne_zero hwi0
          have hslope := ubQ_slope c (vl c i) (wt c i) hwi rest
            (rem - wt c i) rem (Nat.sub_le _ _) hrel hgood_rest
          have heq : rem - (rem - wt c i) = wt c i := by omega
          rw [heq] at hslope
          have hwiq : (0:ℚ) < (wt c i : ℚ) := by exact_mod_cast hwi
          have hcan : ((wt c i : ℕ) : ℚ) * (vl c i) / (wt c i) =
              (vl c i : ℚ) := by
            field_simp
          rw [hcan] at hslope
          linarith
    · unfold ubQ
      rw [if_neg hfit]
      have hwi : 0 < wt c i := by omega
      have hwiq : (0:ℚ) < (wt c i : ℚ) := by exact_mod_cast hwi
      have hiS : i ∉ S := by
        intro hin
        have := Finset.single_le_sum
          (f := wt c) (fun x _ => Nat.zero_le _) hin
        omega
      have hS' : ∀ x ∈ S, x ∈ rest := by
        intro x hx
        rcases List.mem_cons.mp (hS x hx) with heq | h
        · exact absurd (heq ▸ hx) hiS
        · exact h
      have hmain := ih S rem hpair.2 hgood_rest hS' hw
      have hrest_wpos : ∀ x ∈ rest, 0 < wt c x := by
        intro x hx
        rcases Nat.eq_zero_or_pos (wt c x) with h0 | h
        · exfalso
          have hrx := hrel x hx
          rw [h0] at hrx
          have hvx : vl c x = 0 := by
            rcases Nat.mul_eq_zero.mp
              (Nat.le_zero.mp (by simpa using hrx)) with h | h
            · exact h
            · omega
          exact hgood_rest x hx ⟨h0, hvx⟩
        · exact h
      have hslope := ubQ_slope c (vl c i) (wt c i) hwi rest 0 rem
        (Nat.zero_le _) hrel hgood_rest
      rw [ubQ_zero c rest hrest_wpos, Nat.sub_zero, zero_add] at hslope
      have hcomm : ((rem:ℕ):ℚ) * (vl c i) / (wt c i) =
          (vl c i : ℚ) * rem / wt c i := by ring
      rw [hcomm] at hslope
      linarith

/-- Floor transfer: an integer below the exact bound `ubQ` is also below
the floored exact bound `upperBoundExact`. -/
lemma le_upperBound_of_le_ubQ (c : KChallenge) :
    ∀ (L : List Nat) (rem m : Nat),
      (m : ℚ) ≤ ubQ c L rem → m ≤ upperBoundExact c L rem := by
  intro L
  induction L with
  | nil =>
    intro rem m h
    simp only [ubQ] at h
    simp only [upperBoundExact]
    exact_mod_cast h
  | cons i rest ih =>
    intro rem m h
    unfold ubQ at h
    unfold upperBoundExact
    by_cases hfit : wt c i ≤ rem
    · rw [if_pos hfit] at h ⊢
      by_cases hm : m ≤ vl c i
      · exact le_trans hm (Nat.le_add_right _ _)
      · push_neg at hm
        have hk : ((m - vl c i : ℕ) : ℚ) ≤ ubQ c rest (rem - wt c i) := by
          rw [Nat.cast_sub hm.le]
          linarith
        have := ih (rem - wt c i) (m - vl c i) hk
        omega
    · rw [if_neg hfit] at h ⊢
      have hwi : 0 < wt c i := by omega
      have hwq : (0:ℚ) < (wt c i : ℚ) := by exact_mod_cast hwi
      rw [le_div_iff₀ hwq] at h
      have hn : m * wt c i ≤ vl c i * rem := by exact_mod_cast h
      exact (Nat.le_div_iff_mul_le hwi).mpr hn

/-- Soundness of the *idealized* bound: if the exact-rational greedy
fractional-relaxation bound is below `min_value` (no item being the NaN
item `(0, 0)`, where the sort panics instead), then no subset of items of
total weight `≤ max_weight` reaches total value `min_value`.  This is the
property the spec asserts of the early exit; the code computes the break
term in `f64` (see `breakTermF64`), which can undershoot this bound, so
the code's early exit does *not* inherit this soundness. -/
theorem upperBoundExact_sound (c : KChallenge)
    (hnn : ∀ i, i < c.numItems → ¬(wt c i = 0 ∧ vl c i = 0))
    (hub : upperBoundExact c (sortedItems c) c.maxWeight < c.minValue) :
    ∀ S : Finset Nat, (∀ i ∈ S, i < c.numItems) →
      (∑ i in S, wt c i) ≤ c.maxWeight →
      (∑ i in S, vl c i) < c.minValue := by
  intro S hS hw
  have hmem : ∀ x ∈ S, x ∈ sortedItems c := fun x hx =>
    (sortedItems_perm c).mem_iff.mpr (List.mem_range.mpr (hS x hx))
  have hgood : ∀ j ∈ sortedItems c, ¬(wt c j = 0 ∧ vl c j = 0) :=
    fun j hj => hnn j (List.mem_range.mp ((sortedItems_perm c).mem_iff.mp hj))
  have hq := value_le_ubQ c (sortedItems c) S c.maxWeight
    (pairwise_sortedItems c hnn) hgood hmem hw
  have hcast : ((∑ i in S, vl c i : ℕ) : ℚ) = ∑ i in S, ((vl c i : ℚ)) := by
    push_cast
    rfl
  have := le_upperBound_of_le_ubQ c (sortedItems c) c.maxWeight
    (∑ i in S, vl c i) (by rw [hcast]; exact hq)
  omega

set_option maxRecDepth 40000 in
/-- C3: the claim says the bound-based early exit never produces a false
negative.  The code violates it: on weights `[2, 2401, 49]`, values
`[3, 49, 1]`, `max_weight = 51`, `min_value = 4`, items `1` and `2` have
the same `f64` ratio `fl(1/49)` (so the small-slice insertion sort keeps
their original order), the greedy takes item `0` (bound `3`) and breaks at
item `1`, whose `f64` break term is
`fl(fl(1/49) · 49) = 1 - 2⁻⁵³ → 0` instead of the exact `1`; the bound
`3 < 4` triggers the early exit and the solver returns `None` — although
items `{0, 2}` weigh `51 ≤ 51` and reach value `4 ≥ 4`.  (The idealized
bound is sound, `upperBoundExact_sound`; only the `f64` rounding breaks
it.) -/
theorem knapsack_pruning_false_negative :
    solveKnapsack ⟨51, 4, 3, [2, 2401, 49], [3, 49, 1]⟩ = none ∧
      totalWeight ⟨51, 4, 3, [2, 2401, 49], [3, 49, 1]⟩ [0, 2] ≤ 51 ∧
      4 ≤ totalValue ⟨51, 4, 3, [2, 2401, 49], [3, 49, 1]⟩ [0, 2] := by
  refine ⟨?_, by decide, by decide⟩
  rfl

/-- C6: the routing solver's result depends only on `num_nodes`, the
distance matrix and the seed bytes — re-running on the same instance (even
with different `max_capacity`/`demands`, which the code binds to unused
variables) reproduces the identical route, all randomness coming from the
stream seeded by the first 8 seed bytes. -/
theorem routing_deterministic (gen : Nat → RngModel) (cx cy : RChallenge)
    (hn : cx.numNodes = cy.numNodes)
    (hm : cx.distanceMatrix = cy.distanceMatrix)
    (hs : cx.seed = cy.seed) :
    solveRouting gen cx = solveRouting gen cy := by
  unfold solveRouting
  rw [hn, hm, hs]

/-- Witness for C6: two instances equal up to `max_capacity`/`demands`
solve identically. -/
theorem routing_deterministic_witness :
    solveRouting (fun _ => ⟨fun _ _ => 0, fun _ => 0⟩)
        ⟨2, [[0, 5], [5, 0]], 10, [1, 1], [3, 0, 0, 0, 0, 0, 0, 0]⟩ =
      solveRouting (fun _ => ⟨fun _ _ => 0, fun _ => 0⟩)
        ⟨2, [[0, 5], [5, 0]], 7, [9, 4], [3, 0, 0, 0, 0, 0, 0, 0]⟩ :=
  routing_deterministic _ _ _ rfl rfl rfl

/-- C5 counterexample: a selection step in which the draw is `0.0` (a value
`rng.gen::<f64>()` does produce) and node `0` is already visited: the loop
breaks at index `0` because `0 ≤ 0/total`, choosing the *visited* node `0`
— not the last unvisited candidate (node `1`), and not an unvisited node at
all.  (The concrete step: 2 nodes, distances `[[0,5],[5,0]]`, uniform
pheromone `1/2`, current node `0`.) -/
theorem routing_selection_counterexample :
    selectNext
        (probsFor 2 [[0, 5], [5, 0]] [[1/2, 1/2], [1/2, 1/2]]
          (fun v => v == 0) 0)
        (probsFor 2 [[0, 5], [5, 0]] [[1/2, 1/2], [1/2, 1/2]]
          (fun v => v == 0) 0).sum 0 = 0 ∧
      (fun v : Nat => v == 0) 0 = true ∧ (fun v : Nat => v == 0) 1 = false := by
  refine ⟨?_, rfl, rfl⟩
  have hprobs : probsFor 2 [[0, 5], [5, 0]] [[1/2, 1/2], [1/2, 1/2]]
      (fun v => v == 0) 0 = [0, 1/50] := by
    norm_num [probsFor, dQ, List.range_succ]
  rw [hprobs]
  norm_num [selectNext, selectNextAux]

/-- If the draw exceeds every partial cumulative sum, the roulette loop
falls through. -/
lemma selectNextAux_none (total r : ℚ) :
    ∀ (probs : List ℚ) (cum : ℚ) (i : Nat),
      (∀ p ∈ probs, 0 ≤ p / total) →
      cum + (probs.map (· / total)).sum < r →
      selectNextAux total r probs cum i = none := by
  intro probs
  induction probs with
  | nil => intro cum i _ _; rfl
  | cons p ps ih =>
    intro cum i hp hlt
    have hsum : 0 ≤ (ps.map (· / total)).sum :=
      List.sum_nonneg (by
        intro x hx
        obtain ⟨q, hq, rfl⟩ := List.mem_map.mp hx
        exact hp q (List.mem_cons_of_mem p hq))
    have hmap : (List.map (· / total) (p :: ps)).sum =
        p / total + (ps.map (· / total)).sum := by simp
    rw [hmap] at hlt
    unfold selectNextAux
    rw [if_neg (by linarith)]
    exact ih (cum + p / total) (i + 1)
      (fun q hq => hp q (List.mem_cons_of_mem p hq)) (by linarith)

/-- C5 amended: when the draw exceeds the accumulated cumulative
probability after scanning *all* candidates, the node chosen is node `0` —
the `let mut next_node = 0` initialization value, which is the *first*
index and need not be unvisited — not the last unvisited candidate.  (And,
per `routing_selection_counterexample`, a step can also end on a visited
node when the draw is `0`.) -/
theorem routing_selection_amended (probs : List ℚ) (total r : ℚ)
    (hp : ∀ p ∈ probs, 0 ≤ p) (htot : 0 ≤ total)
    (h : (probs.map (· / total)).sum < r) :
    selectNext probs total r = 0 := by
  unfold selectNext
  rw [selectNextAux_none total r probs 0 0
    (fun p hq => div_nonneg (hp p hq) htot) (by linarith)]
  rfl

/-- Witness for the C5 amended theorem: probabilities `[1/4]`, total `1`,
draw `1/2` beyond the cumulative `1/4`: node `0` is chosen. -/
theorem routing_selection_amended_witness :
    (∀ p ∈ ([1/4] : List ℚ), 0 ≤ p) ∧
      (([1/4] : List ℚ).map (· / (1 : ℚ))).sum < 1/2 ∧
      selectNext [1/4] 1 (1/2) = 0 :=
  ⟨by norm_num, by norm_num,
    routing_selection_amended [1/4] 1 (1/2) (by norm_num) (by norm_num)
      (by norm_num)⟩

/-- Entries of `updAt f i l` are entries of `l`, or `f` of one. -/
lemma mem_updAt {α : Type} (f : α → α) :
    ∀ (i : Nat) (l : List α) (x : α), x ∈ updAt f i l →
      x ∈ l ∨ ∃ y ∈ l, x = f y := by
  intro i l
  induction l generalizing i with
  | nil => intro x hx; exact absurd hx (by simp [updAt])
  | cons a as ih =>
    intro x hx
    cases i with
    | zero =>
      rcases List.mem_cons.mp hx with rfl | hx
      · exact Or.inr ⟨a, List.mem_cons_self a as, rfl⟩
      · exact Or.inl (List.mem_cons_of_mem a hx)
    | succ i =>
      rcases List.mem_cons.mp hx with rfl | hx
      · exact Or.inl (List.mem_cons_self x as)
      · rcases ih i x hx with h | ⟨y, hy, rfl⟩
        · exact Or.inl (List.mem_cons_of_mem a h)
        · exact Or.inr ⟨y, List.mem_cons_of_mem a hy, rfl⟩

/-- `updAt` preserves length. -/
lemma updAt_length {α : Type} (f : α → α) :
    ∀ (i : Nat) (l : List α), (updAt f i l).length = l.length := by
  intro i l
  induction l generalizing i with
  | nil => cases i <;> rfl
  | cons a as ih =>
    cases i with
    | zero => rfl
    | succ i => simpa [updAt] using ih i

/-- `MatP` is preserved by a single-entry update whose function preserves
`P`. -/
lemma matP_updAt2 {n : Nat} {P : ℚ → Prop} (f : ℚ → ℚ)
    (hf : ∀ x, P x → P (f x)) (i j : Nat) {mat : List (List ℚ)}
    (h : MatP n P mat) : MatP n P (updAt2 f i j mat) := by
  obtain ⟨hlen, hrow, hent⟩ := h
  refine ⟨by rw [updAt2, updAt_length, hlen], ?_, ?_⟩
  · intro row hrowm
    rcases mem_updAt _ i mat row hrowm with hm | ⟨row₀, hm, rfl⟩
    · exact hrow row hm
    · rw [updAt_length]
      exact hrow row₀ hm
  · intro row hrowm x hx
    rcases mem_updAt _ i mat row hrowm with hm | ⟨row₀, hm, rfl⟩
    · exact hent row hm x hx
    · rcases mem_updAt f j row₀ x hx with hxm | ⟨y, hy, rfl⟩
      · exact hent row₀ hm x hxm
      · exact hf y (hent row₀ hm y hy)

/-- `MatP` is preserved by evaporation when `P` is. -/
lemma matP_evaporate {n : Nat} {P : ℚ → Prop}
    (hf : ∀ x, P x → P (x * (1 - 1/2))) {mat : List (List ℚ)}
    (h : MatP n P mat) : MatP n P (evaporate mat) := by
  obtain ⟨hlen, hrow, hent⟩ := h
  refine ⟨by simp [evaporate, hlen], ?_, ?_⟩
  · intro row hrowm
    obtain ⟨row₀, hm, rfl⟩ := List.mem_map.mp hrowm
    simpa using hrow row₀ hm
  · intro row hrowm x hx
    obtain ⟨row₀, hm, rfl⟩ := List.mem_map.mp hrowm
    obtain ⟨y, hy, rfl⟩ := List.mem_map.mp hx
    exact hf y (hent row₀ hm y hy)

/-- `MatP` is preserved by reinforcing one tour with an amount preserving
`P`. -/
lemma matP_reinforceTour {n : Nat} {P : ℚ → Prop} (amt : ℚ)
    (hf : ∀ x, P x → P (x + amt)) :
    ∀ (t : List Nat) (mat : List (List ℚ)),
      MatP n P mat → MatP n P (reinforceTour amt t mat) := by
  intro t
  induction t with
  | nil => intro mat h; exact h
  | cons a rest ih =>
    intro mat h
    cases rest with
    | nil => exact h
    | cons b rest' =>
      exact ih (updAt2 (· + amt) b a (updAt2 (· + amt) a b mat))
        (matP_updAt2 _ hf b a (matP_updAt2 _ hf a b h))

/-- `MatP` is preserved by the full reinforcement pass when every ant's
`1 / tour_length` amount preserves `P`. -/
lemma matP_reinforce {n : Nat} {P : ℚ → Prop} :
    ∀ (ants : List (List Nat × ℚ)) (mat : List (List ℚ)),
      (∀ a ∈ ants, ∀ x, P x → P (x + 1 / a.2)) →
      MatP n P mat → MatP n P (reinforce ants mat) := by
  intro ants
  induction ants with
  | nil => intro mat _ h; exact h
  | cons a ants ih =>
    intro mat hamt h
    exact ih _ (fun b hb => hamt b (List.mem_cons_of_mem a hb))
      (matP_reinforceTour _ (hamt a (List.mem_cons_self a ants)) a.1 mat h)

/-- The initial pheromone matrix satisfies `MatP` as soon as `P` holds of
the initial value `1 / n`. -/
lemma matP_initState {n : Nat} {P : ℚ → Prop} (h : P (1 / (n : ℚ))) :
    MatP n P (initState n).pher := by
  refine ⟨by simp [initState], ?_, ?_⟩
  · intro row hrow
    rw [List.eq_of_mem_replicate hrow]
    simp
  · intro row hrow x hx
    rw [List.eq_of_mem_replicate hrow] at hx
    rw [List.eq_of_mem_replicate hx]
    exact h

/-- Non-negative matrix entries give non-negative `f64` distances. -/
lemma dQ_nonneg {m : List (List Int)}
    (hm : ∀ row ∈ m, ∀ x ∈ row, (0:Int) ≤ x) (i j : Nat) : 0 ≤ dQ m i j := by
  unfold dQ
  rcases Nat.lt_or_ge i m.length with hi | hi
  · rw [List.getD_eq_getElem m [] hi]
    rcases Nat.lt_or_ge j m[i].length with hj | hj
    · rw [List.getD_eq_getElem _ 0 hj]
      exact_mod_cast hm m[i] (m.getElem_mem hi) _ (List.getElem_mem hj)
    · rw [List.getD_eq_default _ 0 hj]
      norm_num
  · rw [List.getD_eq_default m [] hi]
    simp

/-- Non-negative distances give non-negative tour lengths. -/
lemma tourLength_nonneg {m : List (List Int)}
    (hm : ∀ row ∈ m, ∀ x ∈ row, (0:Int) ≤ x) :
    ∀ t : List Nat, 0 ≤ tourLength m t := by
  intro t
  induction t with
  | nil => norm_num [tourLength]
  | cons a rest ih =>
    cases rest with
    | nil => norm_num [tourLength]
    | cons b rest' =>
      unfold tourLength
      have := dQ_nonneg hm a b
      linarith

/-- Every ant produced by `runAnts` is the `runAnt` output at some draw
index. -/
lemma runAnts_mem (n : Nat) (m : List (List Int)) (pher : List (List ℚ))
    (rng : RngModel) :
    ∀ (count k : Nat), ∀ a ∈ (runAnts n m pher rng count k).1,
      ∃ j, a = ((runAnt n m pher rng j).1, (runAnt n m pher rng j).2.1) := by
  intro count
  induction count with
  | zero => intro k a ha; exact absurd ha (by simp [runAnts])
  | succ c ih =>
    intro k a ha
    unfold runAnts at ha
    rcases List.mem_cons.mp ha with rfl | ha
    · exact ⟨k, rfl⟩
    · exact ih _ a ha

/-- The length an ant records is the length of its tour. -/
lemma runAnt_len (n : Nat) (m : List (List Int)) (pher : List (List ℚ))
    (rng : RngModel) (k : Nat) :
    (runAnt n m pher rng k).2.1 = tourLength m (runAnt n m pher rng k).1 :=
  rfl

/-- One ACO iteration preserves entrywise non-negativity of the pheromone
matrix, given non-negative distances. -/
lemma acoIter_nonneg (n : Nat) (m : List (List Int)) (rng : RngModel)
    (hm : ∀ row ∈ m, ∀ x ∈ row, (0:Int) ≤ x) (st : AcoState)
    (h : MatP n (fun x => 0 ≤ x) st.pher) :
    MatP n (fun x => 0 ≤ x) (acoIter n m rng st).pher := by
  unfold acoIter
  refine matP_reinforce _ _ ?_ (matP_evaporate (fun x hx => by linarith) h)
  intro a ha x hx
  obtain ⟨j, rfl⟩ := runAnts_mem n m st.pher rng 10 st.k a ha
  have hlen : 0 ≤ (runAnt n m st.pher rng j).2.1 := by
    rw [runAnt_len]
    exact tourLength_nonneg hm _
  have := one_div_nonneg.mpr hlen
  linarith

/-- Entrywise non-negativity holds at every iteration count. -/
lemma acoIters_nonneg (n : Nat) (m : List (List Int)) (rng : RngModel)
    (hm : ∀ row ∈ m, ∀ x ∈ row, (0:Int) ≤ x) :
    ∀ (t : Nat) (st : AcoState), MatP n (fun x => 0 ≤ x) st.pher →
      MatP n (fun x => 0 ≤ x) (acoIters n m rng t st).pher := by
  intro t
  induction t with
  | zero => intro st h; exact h
  | succ t ih => intro st h; exact ih _ (acoIter_nonneg n m rng hm st h)

/-- C7: pheromone entries are non-negative at every point of the
computation (given the instance's non-negative distances): the initial
matrix is strictly positive when `num_nodes ≥ 1`, and after any number of
iterations — and also right after the evaporation phase inside the next
iteration — every entry is still non-negative, since evaporation multiplies
by `1 - 0.5 < 1` and reinforcement adds the non-negative `1/tour_length`. -/
theorem routing_pheromone_nonneg (n : Nat) (m : List (List Int))
    (rng : RngModel) (hm : ∀ row ∈ m, ∀ x ∈ row, (0:Int) ≤ x) :
    (1 ≤ n → ∀ row ∈ (initState n).pher, ∀ x ∈ row, 0 < x) ∧
      (∀ t, ∀ row ∈ (acoIters n m rng t (initState n)).pher,
        ∀ x ∈ row, 0 ≤ x) ∧
      (∀ t, ∀ row ∈ evaporate (acoIters n m rng t (initState n)).pher,
        ∀ x ∈ row, 0 ≤ x) := by
  have hinv : ∀ t, MatP n (fun x => 0 ≤ x)
      (acoIters n m rng t (initState n)).pher :=
    fun t => acoIters_nonneg n m rng hm t _ (matP_initState (by positivity))
  refine ⟨?_, fun t => (hinv t).2.2,
    fun t => (matP_evaporate (fun x hx => by linarith) (hinv t)).2.2⟩
  intro hn
  have hpos : (0:ℚ) < 1 / (n:ℚ) :=
    one_div_pos.mpr (by exact_mod_cast hn)
  exact (matP_initState hpos).2.2

/-- Witness for C7 at a concrete 2-node instance. -/
theorem routing_pheromone_nonneg_witness :
    (∀ row ∈ ([[0, 5], [5, 0]] : List (List Int)), ∀ x ∈ row, (0:Int) ≤ x) ∧
      ∀ t, ∀ row ∈ (acoIters 2 [[0, 5], [5, 0]] ⟨fun _ _ => 0, fun _ => 0⟩ t
        (initState 2)).pher, ∀ x ∈ row, 0 ≤ x :=
  ⟨by decide,
    (routing_pheromone_nonneg 2 [[0, 5], [5, 0]] ⟨fun _ _ => 0, fun _ => 0⟩
      (by decide)).2.1⟩

/-- The best-tour scan keeps the incumbent when no ant beats it
strictly. -/
lemma updateBest_ge : ∀ (ants : List (List Nat × ℚ)) (best : List Nat × ℚ),
    (∀ a ∈ ants, ¬(a.2 < best.2)) → updateBest ants best = best := by
  intro ants
  induction ants with
  | nil => intro best _; rfl
  | cons a ants ih =>
    intro best h
    unfold updateBest
    rw [if_neg (h a (List.mem_cons_self a ants))]
    exact ih best (fun b hb => h b (List.mem_cons_of_mem a hb))

/-- If every `runAnt` output against a fixed pheromone matrix has length
`L`, so does every ant of `runAnts`. -/
lemma runAnts_all_len (n : Nat) (m : List (List Int))
    (pher : List (List ℚ)) (rng : RngModel) (L : ℚ)
    (hant : ∀ j, (runAnt n m pher rng j).2.1 = L) :
    ∀ (count k : Nat), ∀ a ∈ (runAnts n m pher rng count k).1, a.2 = L := by
  intro count k a ha
  obtain ⟨j, rfl⟩ := runAnts_mem n m pher rng count k a ha
  exact hant j

/-- When every ant (under a well-formed pheromone matrix) has the same
tour length `L ≥ 0`, one ACO iteration keeps the incumbent best tour and
preserves pheromone well-formedness. -/
lemma acoIter_equal_len (n : Nat) (m : List (List Int)) (rng : RngModel)
    (L : ℚ) (B : List Nat)
    (hant : ∀ k pher, PherOk n pher → (runAnt n m pher rng k).2.1 = L)
    (hL0 : 0 ≤ L) (st : AcoState) (hpher : PherOk n st.pher)
    (hbT : st.bestTour = B) (hbL : st.bestLen = L) :
    PherOk n (acoIter n m rng st).pher ∧
      (acoIter n m rng st).bestTour = B ∧
      (acoIter n m rng st).bestLen = L := by
  have hall : ∀ a ∈ (runAnts n m st.pher rng 10 st.k).1, a.2 = L :=
    runAnts_all_len n m st.pher rng L (fun j => hant j st.pher hpher) 10 st.k
  have hub : updateBest (runAnts n m st.pher rng 10 st.k).1
      (st.bestTour, st.bestLen) = (st.bestTour, st.bestLen) :=
    updateBest_ge _ _ (by
      intro a ha
      rw [hall a ha, hbL]
      exact lt_irrefl L)
  refine ⟨?_, ?_, ?_⟩
  · show PherOk n (reinforce (runAnts n m st.pher rng 10 st.k).1
      (evaporate st.pher))
    refine matP_reinforce _ _ ?_
      (matP_evaporate (fun x hx => by linarith) hpher)
    intro a ha x hx
    rw [hall a ha]
    have := one_div_nonneg.mpr hL0
    linarith
  · show (updateBest (runAnts n m st.pher rng 10 st.k).1
      (st.bestTour, st.bestLen)).1 = B
    rw [hub]
    exact hbT
  · show (updateBest (runAnts n m st.pher rng 10 st.k).1
      (st.bestTour, st.bestLen)).2 = L
    rw [hub]
    exact hbL

/-- The invariant of `acoIter_equal_len` propagates through any number of
iterations. -/
lemma acoIters_equal_len (n : Nat) (m : List (List Int)) (rng : RngModel)
    (L : ℚ) (B : List Nat)
    (hant : ∀ k pher, PherOk n pher → (runAnt n m pher rng k).2.1 = L)
    (hL0 : 0 ≤ L) :
    ∀ (t : Nat) (st : AcoState),
      PherOk n st.pher → st.bestTour = B → st.bestLen = L →
      (acoIters n m rng t st).bestTour = B := by
  intro t
  induction t with
  | zero => intro st _ hbT _; exact hbT
  | succ t ih =>
    intro st hpher hbT hbL
    obtain ⟨h1, h2, h3⟩ :=
      acoIter_equal_len n m rng L B hant hL0 st hpher hbT hbL
    exact ih _ h1 h2 h3

/-- When every ant (under any well-formed pheromone matrix and any draw
position) records the same tour length `0 ≤ L < f64::MAX`, the returned
route is exactly the very first ant's tour: the first ant replaces the
`f64::MAX` incumbent and no strictly-smaller length ever appears again. -/
lemma aco_equal_len_best (n : Nat) (m : List (List Int)) (rng : RngModel)
    (L : ℚ) (hn : 1 ≤ n)
    (hant : ∀ k pher, PherOk n pher → (runAnt n m pher rng k).2.1 = L)
    (hL0 : 0 ≤ L) (hLmax : L < fMax) :
    solveRoutingCore n m rng =
      ⟨[(runAnt n m (initState n).pher rng 0).1]⟩ := by
  have hinit : PherOk n (initState n).pher :=
    matP_initState (one_div_pos.mpr (by exact_mod_cast hn))
  have hfirst :
      PherOk n (acoIter n m rng (initState n)).pher ∧
        (acoIter n m rng (initState n)).bestTour =
          (runAnt n m (initState n).pher rng 0).1 ∧
        (acoIter n m rng (initState n)).bestLen = L := by
    have hall : ∀ a ∈ (runAnts n m (initState n).pher rng 10 0).1, a.2 = L :=
      runAnts_all_len n m (initState n).pher rng L
        (fun j => hant j _ hinit) 10 0
    have hants : (runAnts n m (initState n).pher rng 10 0).1 =
        ((runAnt n m (initState n).pher rng 0).1,
          (runAnt n m (initState n).pher rng 0).2.1) ::
          (runAnts n m (initState n).pher rng 9
            (runAnt n m (initState n).pher rng 0).2.2).1 := rfl
    have hL : (runAnt n m (initState n).pher rng 0).2.1 = L :=
      hant 0 _ hinit
    have hub : updateBest (runAnts n m (initState n).pher rng 10 0).1
        ([], fMax) = ((runAnt n m (initState n).pher rng 0).1, L) := by
      rw [hants]
      unfold updateBest
      rw [hL, if_pos (by exact hLmax)]
      refine updateBest_ge _ _ ?_
      intro a ha
      rw [hall a (by rw [hants]; exact List.mem_cons_of_mem _ ha)]
      exact lt_irrefl L
    refine ⟨?_, ?_, ?_⟩
    · show PherOk n (reinforce (runAnts n m (initState n).pher rng 10 0).1
        (evaporate (initState n).pher))
      refine matP_reinforce _ _ ?_
        (matP_evaporate (fun x hx => by linarith) hinit)
      intro a ha x hx
      rw [hall a ha]
      have := one_div_nonneg.mpr hL0
      linarith
    · show (updateBest (runAnts n m (initState n).pher rng 10 0).1
        ([], fMax)).1 = _
      rw [hub]
    · show (updateBest (runAnts n m (initState n).pher rng 10 0).1
        ([], fMax)).2 = L
      rw [hub]
  have hsucc : ∀ (t : Nat) (st : AcoState), acoIters n m rng (t + 1) st =
      acoIters n m rng t (acoIter n m rng st) := fun _ _ => rfl
  have h1000 : acoIters n m rng 1000 (initState n) =
      acoIters n m rng 999 (acoIter n m rng (initState n)) := by
    rw [show (1000 : Nat) = 999 + 1 by norm_num, hsucc]
  unfold solveRoutingCore
  rw [h1000, acoIters_equal_len n m rng L
    (runAnt n m (initState n).pher rng 0).1 hant hL0 999 _
    hfirst.1 hfirst.2.1 hfirst.2.2]

/-- Entry access into a well-formed pheromone matrix. -/
lemma pherOk_entry_pos {n : Nat} {pher : List (List ℚ)} (h : PherOk n pher)
    {i j : Nat} (hi : i < n) (hj : j < n) :
    0 < (pher.getD i []).getD j 0 := by
  obtain ⟨hlen, hrow, hent⟩ := h
  have hi' : i < pher.length := by omega
  rw [List.getD_eq_getElem pher [] hi']
  have hrm : pher[i] ∈ pher := pher.getElem_mem hi'
  have hj' : j < pher[i].length := by rw [hrow _ hrm]; exact hj
  rw [List.getD_eq_getElem _ 0 hj']
  exact hent _ hrm _ (List.getElem_mem hj')

/-- `buildSteps` with no fuel. -/
lemma buildSteps_zero (n : Nat) (m : List (List Int)) (pher : List (List ℚ))
    (rng : RngModel) (k : Nat) (trev : List Nat) (vis : Nat → Bool) :
    buildSteps n m pher rng 0 k trev vis = (trev, k) := rfl

/-- One unfolding of the construction loop. -/
lemma buildSteps_succ (n : Nat) (m : List (List Int)) (pher : List (List ℚ))
    (rng : RngModel) (fuel k : Nat) (trev : List Nat) (vis : Nat → Bool) :
    buildSteps n m pher rng (fuel + 1) k trev vis =
      buildSteps n m pher rng fuel (k + 1)
        (selectNext (probsFor n m pher vis (trev.headD 0))
          (probsFor n m pher vis (trev.headD 0)).sum (rng.unit k) :: trev)
        (fun v => if v = selectNext (probsFor n m pher vis (trev.headD 0))
          (probsFor n m pher vis (trev.headD 0)).sum (rng.unit k) then true
          else vis v) := rfl

/-- `runAnt` spelled out. -/
lemma runAnt_eq (n : Nat) (m : List (List Int)) (pher : List (List ℚ))
    (rng : RngModel) (k : Nat) :
    runAnt n m pher rng k =
      ((buildSteps n m pher rng (n - 1) (k + 1) [rng.range k n]
          (fun v => if v = rng.range k n then true else false)).1.reverse ++
        [(buildSteps n m pher rng (n - 1) (k + 1) [rng.range k n]
          (fun v => if v = rng.range k n then true else false)).1.reverse.headD
          0],
       tourLength m
        ((buildSteps n m pher rng (n - 1) (k + 1) [rng.range k n]
          (fun v => if v = rng.range k n then true else false)).1.reverse ++
        [(buildSteps n m pher rng (n - 1) (k + 1) [rng.range k n]
          (fun v => if v = rng.range k n then true else false)).1.reverse.headD
          0]),
       (buildSteps n m pher rng (n - 1) (k + 1) [rng.range k n]
          (fun v => if v = rng.range k n then true else false)).2) := rfl

/-- Under the stream whose `gen_range` draw is `1` and whose uniform draw
is `1/2`, every ant on the 2-node instance starts at node `1` and builds
the closed route `[1, 0, 1]` of length `10`, for any well-formed pheromone
matrix. -/
lemma runAnt_rng1 (pher : List (List ℚ)) (hpher : PherOk 2 pher) (k : Nat) :
    runAnt 2 [[0, 5], [5, 0]] pher ⟨fun _ _ => 1, fun _ => 1/2⟩ k =
      ([1, 0, 1], 10, k + 2) := by
  have hp0 : 0 < (pher.getD 1 []).getD 0 0 :=
    pherOk_entry_pos hpher (by norm_num) (by norm_num)
  rw [runAnt_eq]
  have h1 : (⟨fun _ _ => 1, fun _ => 1/2⟩ : RngModel).range k 2 = 1 := rfl
  rw [h1, show (2:Nat) - 1 = 0 + 1 by norm_num, buildSteps_succ,
    buildSteps_zero]
  have hsel : selectNext
      (probsFor 2 [[0, 5], [5, 0]] pher
        (fun v => if v = 1 then true else false) (([1]:List Nat).headD 0))
      (probsFor 2 [[0, 5], [5, 0]] pher
        (fun v => if v = 1 then true else false) (([1]:List Nat).headD 0)).sum
      ((⟨fun _ _ => 1, fun _ => 1/2⟩ : RngModel).unit k) = 0 := by
    have hprobs : probsFor 2 [[0, 5], [5, 0]] pher
        (fun v => if v = 1 then true else false) 1 =
        [(pher.getD 1 []).getD 0 0 * (1/5)^2, 0] := by
      norm_num [probsFor, List.range_succ, dQ]
    simp only [List.headD]
    rw [hprobs]
    have hpos : (0:ℚ) < (pher.getD 1 []).getD 0 0 * (1/5)^2 := by positivity
    have hsum : ([(pher.getD 1 []).getD 0 0 * (1/5)^2, 0] : List ℚ).sum =
        (pher.getD 1 []).getD 0 0 * (1/5)^2 := by simp
    unfold selectNext selectNextAux
    rw [hsum, zero_add, div_self (ne_of_gt hpos),
      if_pos (by norm_num : (1:ℚ)/2 ≤ 1)]
    rfl
  rw [hsel]
  norm_num [tourLength, dQ]

/-- On a 2-node instance with non-degenerate distances, any draw stream
with `gen_range` draws in range and uniform draws in `(0, 1)` makes every
ant build the closed tour `[s, 1-s, s]` from its random start `s`, of
length `distance(0,1) + distance(1,0)` — the same for both starts. -/
lemma runAnt_two_node (m : List (List Int)) (rng : RngModel)
    (h01 : dQ m 0 1 ≠ 0) (h10 : dQ m 1 0 ≠ 0)
    (hrange : ∀ j, rng.range j 2 < 2)
    (hunit : ∀ j, 0 < rng.unit j ∧ rng.unit j < 1)
    (pher : List (List ℚ)) (hpher : PherOk 2 pher) (k : Nat) :
    (runAnt 2 m pher rng k).1 =
        [rng.range k 2, 1 - rng.range k 2, rng.range k 2] ∧
      (runAnt 2 m pher rng k).2.1 = dQ m 0 1 + dQ m 1 0 := by
  have hr := hunit (k + 1)
  have hs2 := hrange k
  have hcase : rng.range k 2 = 0 ∨ rng.range k 2 = 1 := by omega
  rcases hcase with hs | hs
  · -- start node 0
    have hq : 0 < (pher.getD 0 []).getD 1 0 :=
      pherOk_entry_pos hpher (by norm_num) (by norm_num)
    have hA : (0:ℚ) < (pher.getD 0 []).getD 1 0 * (1 / dQ m 0 1) ^ 2 := by
      have h2 : (0:ℚ) < (1 / dQ m 0 1) ^ 2 :=
        lt_of_le_of_ne (by positivity)
          (Ne.symm (pow_ne_zero 2 (one_div_ne_zero h01)))
      positivity
    rw [runAnt_eq, hs, show (2:Nat) - 1 = 0 + 1 by norm_num, buildSteps_succ,
      buildSteps_zero]
    have hprobs : probsFor 2 m pher
        (fun v => if v = 0 then true else false) 0 =
        [0, (pher.getD 0 []).getD 1 0 * (1 / dQ m 0 1) ^ 2] := by
      norm_num [probsFor, List.range_succ]
    have hsel : selectNext (probsFor 2 m pher
        (fun v => if v = 0 then true else false) (([0]:List Nat).headD 0))
        (probsFor 2 m pher
          (fun v => if v = 0 then true else false) (([0]:List Nat).headD 0)).sum
        (rng.unit (k + 1)) = 1 := by
      simp only [List.headD]
      rw [hprobs]
      have hsum : ([0, (pher.getD 0 []).getD 1 0 * (1 / dQ m 0 1) ^ 2] :
          List ℚ).sum = (pher.getD 0 []).getD 1 0 * (1 / dQ m 0 1) ^ 2 := by
        simp
      unfold selectNext selectNextAux
      rw [hsum, zero_div, add_zero, if_neg (by linarith [hr.1])]
      unfold selectNextAux
      rw [zero_add, div_self (ne_of_gt hA), if_pos (by linarith [hr.2])]
      rfl
    rw [hsel]
    norm_num [tourLength]
  · -- start node 1
    have hq : 0 < (pher.getD 1 []).getD 0 0 :=
      pherOk_entry_pos hpher (by norm_num) (by norm_num)
    have hA : (0:ℚ) < (pher.getD 1 []).getD 0 0 * (1 / dQ m 1 0) ^ 2 := by
      have h2 : (0:ℚ) < (1 / dQ m 1 0) ^ 2 :=
        lt_of_le_of_ne (by positivity)
          (Ne.symm (pow_ne_zero 2 (one_div_ne_zero h10)))
      positivity
    rw [runAnt_eq, hs, show (2:Nat) - 1 = 0 + 1 by norm_num, buildSteps_succ,
      buildSteps_zero]
    have hprobs : probsFor 2 m pher
        (fun v => if v = 1 then true else false) 1 =
        [(pher.getD 1 []).getD 0 0 * (1 / dQ m 1 0) ^ 2, 0] := by
      norm_num [probsFor, List.range_succ]
    have hsel : selectNext (probsFor 2 m pher
        (fun v => if v = 1 then true else false) (([1]:List Nat).headD 0))
        (probsFor 2 m pher
          (fun v => if v = 1 then true else false) (([1]:List Nat).headD 0)).sum
        (rng.unit (k + 1)) = 0 := by
      simp only [List.headD]
      rw [hprobs]
      have hsum : ([(pher.getD 1 []).getD 0 0 * (1 / dQ m 1 0) ^ 2, 0] :
          List ℚ).sum = (pher.getD 1 []).getD 0 0 * (1 / dQ m 1 0) ^ 2 := by
        simp
      unfold selectNext selectNextAux
      rw [hsum, zero_add, div_self (ne_of_gt hA),
        if_pos (by linarith [hr.2])]
      rfl
    rw [hsel]
    norm_num [tourLength]
    ring

/-- C9 counterexample: the claim says the 2-node route is always
`[0, 1, 0]`; under the stream whose `gen_range(0..2)` draw is `1` (a value
in range) every ant starts at node `1`, and the returned route is
`[1, 0, 1]`. -/
theorem routing_two_node_counterexample :
    (solveRoutingCore 2 [[0, 5], [5, 0]]
        ⟨fun _ _ => 1, fun _ => 1/2⟩).routes = [[1, 0, 1]] ∧
      [[(1:Nat), 0, 1]] ≠ [[0, 1, 0]] := by
  constructor
  · have hinit : PherOk 2 (initState 2).pher :=
      matP_initState (by norm_num)
    rw [aco_equal_len_best 2 [[0, 5], [5, 0]] ⟨fun _ _ => 1, fun _ => 1/2⟩ 10
      (by norm_num) (fun k pher hp => by rw [runAnt_rng1 pher hp k])
      (by norm_num) (by norm_num [fMax]), runAnt_rng1 _ hinit 0]
  · decide

/-- C9 amended: on every 2-node instance with positive distances (and a
total round-trip length below `f64::MAX`), for every draw stream with
in-range `gen_range` draws and uniform draws in `(0, 1)`, the solver
returns one closed 2-node tour — `[0, 1, 0]` or `[1, 0, 1]`, depending on
the first seeded draw — whose length is `distance(0,1) + distance(1,0)`
(which is `2 × distance(0,1)` when the matrix is symmetric). -/
theorem routing_two_node_amended (m : List (List Int)) (rng : RngModel)
    (h01 : 0 < dQ m 0 1) (h10 : 0 < dQ m 1 0)
    (hmax : dQ m 0 1 + dQ m 1 0 < fMax)
    (hrange : ∀ j, rng.range j 2 < 2)
    (hunit : ∀ j, 0 < rng.unit j ∧ rng.unit j < 1) :
    ((solveRoutingCore 2 m rng).routes = [[0, 1, 0]] ∨
      (solveRoutingCore 2 m rng).routes = [[1, 0, 1]]) ∧
      ∀ T ∈ (solveRoutingCore 2 m rng).routes,
        tourLength m T = dQ m 0 1 + dQ m 1 0 := by
  have hinit : PherOk 2 (initState 2).pher :=
    matP_initState (by norm_num)
  have hrw := aco_equal_len_best 2 m rng (dQ m 0 1 + dQ m 1 0) (by norm_num)
    (fun k pher hp =>
      (runAnt_two_node m rng (ne_of_gt h01) (ne_of_gt h10) hrange hunit
        pher hp k).2)
    (by linarith) hmax
  have hfirst := runAnt_two_node m rng (ne_of_gt h01) (ne_of_gt h10) hrange
    hunit (initState 2).pher hinit 0
  rw [hrw]
  have hcase : rng.range 0 2 = 0 ∨ rng.range 0 2 = 1 := by
    have := hrange 0
    omega
  constructor
  · rcases hcase with hs | hs
    · left
      rw [hfirst.1, hs]
    · right
      rw [hfirst.1, hs]
  · intro T hT
    rw [List.mem_singleton.mp hT, ← hfirst.2]
    rfl

/-- Witness for the C9 amended theorem at a concrete symmetric instance
and stream. -/
theorem routing_two_node_amended_witness :
    ((solveRoutingCore 2 [[0, 5], [5, 0]]
        ⟨fun _ _ => 0, fun _ => 1/2⟩).routes = [[0, 1, 0]] ∨
      (solveRoutingCore 2 [[0, 5], [5, 0]]
        ⟨fun _ _ => 0, fun _ => 1/2⟩).routes = [[1, 0, 1]]) ∧
      ∀ T ∈ (solveRoutingCore 2 [[0, 5], [5, 0]]
          ⟨fun _ _ => 0, fun _ => 1/2⟩).routes,
        tourLength [[0, 5], [5, 0]] T =
          dQ [[0, 5], [5, 0]] 0 1 + dQ [[0, 5], [5, 0]] 1 0 :=
  routing_two_node_amended [[0, 5], [5, 0]] ⟨fun _ _ => 0, fun _ => 1/2⟩
    (by norm_num [dQ]) (by norm_num [dQ]) (by norm_num [dQ, fMax])
    (fun j => by norm_num) (fun j => by norm_num)

